import Mathlib

/-!
# Case-conversion engine: a shallow embedding

This file embeds the repository's case-conversion functions in Lean and
proves the specification's testable properties about them.

The repository contains five public conversion functions spread over
three files:

* a permissive PascalCase converter (Unicode-run tokenization) and a
  permissive camelCase converter (ASCII-run tokenization);
* a strict `toDotCase` and a strict PascalCase `toCamelCase`, sharing a
  validation pipeline with a 1,000,000-character length ceiling;
* a strict `toKebabCase` built from a camel-boundary split plus a cleanup
  pipeline.

Modelling conventions:

* JavaScript strings are modelled by Lean `String` / `List Char`; the few
  places where a JS string method is UTF-16-based (`.length`) are modelled
  by the scalar count, which agrees on all inputs used by the claims.
* `null` and `undefined` inputs are modelled by the `JSVal` type.
* A thrown JS exception is modelled by `Except` with a `JsError` value
  carrying the constructor name and the exact message string of the
  source's `throw` site.
* JS `toLowerCase`/`toUpperCase` are modelled on the ASCII range (this is
  also exactly what the strict validators admit); `\p{L}\p{N}` run
  tokenization of the permissive Pascal converter is likewise modelled on
  the ASCII range.  No claim in this development depends on non-ASCII
  case mapping.
-/

set_option autoImplicit false

/-! ## Character classes

The JS regexes used by the source are `[a-z]`, `[A-Z]`, `[0-9]`, `\d`,
`[A-Za-z]`, `[A-Za-z0-9]` and `\s`.  Each is modelled as a decidable
predicate on the scalar value. -/

/-- `[a-z]` of the source regexes. -/
def isLowerAZ (c : Char) : Bool :=
  97 ≤ c.toNat && c.toNat ≤ 122

/-- `[A-Z]` of the source regexes. -/
def isUpperAZ (c : Char) : Bool :=
  65 ≤ c.toNat && c.toNat ≤ 90

/-- `[0-9]` (also JS `\d`). -/
def isDigitChar (c : Char) : Bool :=
  48 ≤ c.toNat && c.toNat ≤ 57

/-- `[A-Za-z]`. -/
def isAsciiLetter (c : Char) : Bool :=
  isUpperAZ c || isLowerAZ c

/-- `[A-Za-z0-9]`, the run alphabet of the permissive camelCase converter. -/
def isAsciiAlnum (c : Char) : Bool :=
  isAsciiLetter c || isDigitChar c

/-- JS `\s` (WhiteSpace and LineTerminator productions): TAB, LF, VT, FF,
CR, SP, NBSP, OGHAM SPACE MARK, U+2000..U+200A, LS, PS, NNBSP, MMSP,
IDEOGRAPHIC SPACE and BOM.  This is also the set removed by
`String.prototype.trim`. -/
def isJsWs (c : Char) : Bool :=
  c.toNat = 9 || c.toNat = 10 || c.toNat = 11 || c.toNat = 12 ||
  c.toNat = 13 || c.toNat = 32 || c.toNat = 160 || c.toNat = 5760 ||
  (8192 ≤ c.toNat && c.toNat ≤ 8202) || c.toNat = 8232 ||
  c.toNat = 8233 || c.toNat = 8239 || c.toNat = 8287 ||
  c.toNat = 12288 || c.toNat = 65279

/-! ### Facts about `Char.toLower` / `Char.toUpper`

Core's `Char.toLower`/`Char.toUpper` are precisely the ASCII model of the
JS string methods used by the source: they map `A..Z`/`a..z` by an offset
of 32 and leave every other character unchanged. -/

theorem toNat_ofNat_of_lt {n : Nat} (h : n < 55296) : (Char.ofNat n).toNat = n := by
  rw [Char.ofNat, dif_pos (Or.inl h)]
  simp [Char.ofNatAux, Char.toNat, UInt32.toNat]

theorem toLower_eq_of_not_upper {c : Char} (h : isUpperAZ c = false) :
    Char.toLower c = c := by
  simp only [isUpperAZ, Bool.and_eq_false_imp, decide_eq_true_eq,
    decide_eq_false_iff_not, not_le] at h
  rw [Char.toLower, if_neg]
  omega

theorem toLower_toNat_of_upper {c : Char} (h : isUpperAZ c = true) :
    (Char.toLower c).toNat = c.toNat + 32 := by
  simp only [isUpperAZ, Bool.and_eq_true, decide_eq_true_eq] at h
  rw [Char.toLower, if_pos (by omega)]
  exact toNat_ofNat_of_lt (by omega)

theorem toUpper_eq_of_not_lower {c : Char} (h : isLowerAZ c = false) :
    Char.toUpper c = c := by
  simp only [isLowerAZ, Bool.and_eq_false_imp, decide_eq_true_eq,
    decide_eq_false_iff_not, not_le] at h
  rw [Char.toUpper, if_neg]
  omega

theorem toUpper_toNat_of_lower {c : Char} (h : isLowerAZ c = true) :
    (Char.toUpper c).toNat = c.toNat - 32 := by
  simp only [isLowerAZ, Bool.and_eq_true, decide_eq_true_eq] at h
  rw [Char.toUpper, if_pos (by omega)]
  exact toNat_ofNat_of_lt (by omega)

theorem isLowerAZ_toLower_of_upper {c : Char} (h : isUpperAZ c = true) :
    isLowerAZ (Char.toLower c) = true := by
  have h2 := toLower_toNat_of_upper h
  simp only [isUpperAZ, Bool.and_eq_true, decide_eq_true_eq] at h
  simp only [isLowerAZ, Bool.and_eq_true, decide_eq_true_eq]
  omega

theorem isLowerAZ_toLower_of_letter {c : Char} (h : isAsciiLetter c = true) :
    isLowerAZ (Char.toLower c) = true := by
  simp only [isAsciiLetter, Bool.or_eq_true] at h
  rcases h with h | h
  · exact isLowerAZ_toLower_of_upper h
  · cases hu : isUpperAZ c with
    | false => rw [toLower_eq_of_not_upper hu]; exact h
    | true =>
      simp only [isLowerAZ, isUpperAZ, Bool.and_eq_true, decide_eq_true_eq] at h hu
      omega

theorem isUpperAZ_toUpper_of_letter {c : Char} (h : isAsciiLetter c = true) :
    isUpperAZ (Char.toUpper c) = true := by
  simp only [isAsciiLetter, Bool.or_eq_true] at h
  rcases h with h | h
  · cases hl : isLowerAZ c with
    | false => rw [toUpper_eq_of_not_lower hl]; exact h
    | true =>
      simp only [isLowerAZ, isUpperAZ, Bool.and_eq_true, decide_eq_true_eq] at h hl
      omega
  · have h2 := toUpper_toNat_of_lower h
    simp only [isLowerAZ, Bool.and_eq_true, decide_eq_true_eq] at h
    simp only [isUpperAZ, Bool.and_eq_true, decide_eq_true_eq]
    omega

theorem lower_not_upper {c : Char} (h : isLowerAZ c = true) : isUpperAZ c = false := by
  simp only [isLowerAZ, Bool.and_eq_true, decide_eq_true_eq] at h
  simp only [isUpperAZ, Bool.and_eq_false_iff, decide_eq_false_iff_not, not_le]
  omega

theorem upper_not_lower {c : Char} (h : isUpperAZ c = true) : isLowerAZ c = false := by
  simp only [isUpperAZ, Bool.and_eq_true, decide_eq_true_eq] at h
  simp only [isLowerAZ, Bool.and_eq_false_iff, decide_eq_false_iff_not, not_le]
  omega

theorem isAsciiLetter_toLower {c : Char} (h : isAsciiLetter c = true) :
    isAsciiLetter (Char.toLower c) = true := by
  simp [isAsciiLetter, isLowerAZ_toLower_of_letter h]

theorem isAsciiLetter_toUpper {c : Char} (h : isAsciiLetter c = true) :
    isAsciiLetter (Char.toUpper c) = true := by
  simp [isAsciiLetter, isUpperAZ_toUpper_of_letter h]

theorem toLower_idem_of_letter {c : Char} (h : isAsciiLetter c = true) :
    Char.toLower (Char.toLower c) = Char.toLower c :=
  toLower_eq_of_not_upper (lower_not_upper (isLowerAZ_toLower_of_letter h))

theorem toUpper_idem_of_letter {c : Char} (h : isAsciiLetter c = true) :
    Char.toUpper (Char.toUpper c) = Char.toUpper c :=
  toUpper_eq_of_not_lower (upper_not_lower (isUpperAZ_toUpper_of_letter h))

theorem toLower_ne_of_upper {c : Char} (h : isUpperAZ c = true) :
    Char.toLower c ≠ c := by
  intro heq
  have h2 := toLower_toNat_of_upper h
  rw [heq] at h2
  omega

theorem digit_not_letter {c : Char} (h : isDigitChar c = true) :
    isAsciiLetter c = false := by
  simp only [isDigitChar, Bool.and_eq_true, decide_eq_true_eq] at h
  simp only [isAsciiLetter, isUpperAZ, isLowerAZ, Bool.or_eq_false_iff,
    Bool.and_eq_false_iff, decide_eq_false_iff_not, not_le]
  omega

theorem digit_not_ws {c : Char} (h : isDigitChar c = true) : isJsWs c = false := by
  simp only [isDigitChar, Bool.and_eq_true, decide_eq_true_eq] at h
  simp only [isJsWs, Bool.or_eq_false_iff, Bool.and_eq_false_iff,
    decide_eq_false_iff_not, not_le]
  omega

theorem letter_not_ws {c : Char} (h : isAsciiLetter c = true) : isJsWs c = false := by
  simp only [isAsciiLetter, isUpperAZ, isLowerAZ, Bool.or_eq_true,
    Bool.and_eq_true, decide_eq_true_eq] at h
  simp only [isJsWs, Bool.or_eq_false_iff, Bool.and_eq_false_iff,
    decide_eq_false_iff_not, not_le]
  omega

/-! ## Trimming

`String.prototype.trim` removes the leading and the trailing run of `\s`
characters.  `dropEnds p` removes the leading and trailing run of
characters satisfying `p`; it is reused for the kebab converter's
`replace(/^-+|-+$/g, "")` step. -/

/-- Remove the leading and the trailing run of characters satisfying `p`. -/
def dropEnds (p : Char → Bool) (l : List Char) : List Char :=
  ((l.dropWhile p).reverse.dropWhile p).reverse

/-- The model of `String.prototype.trim`. -/
def jsTrim (l : List Char) : List Char :=
  dropEnds isJsWs l

theorem head_dropWhile_not {p : Char → Bool} {l : List Char} {c : Char}
    (h : (l.dropWhile p).head? = some c) : p c = false := by
  induction l with
  | nil => simp [List.dropWhile] at h
  | cons a rest ih =>
    rw [List.dropWhile] at h
    cases hp : p a with
    | true => rw [hp] at h; exact ih h
    | false => rw [hp] at h; simp at h; rwa [← h]

theorem getLast_dropWhile_of_ne_nil {p : Char → Bool} {l : List Char}
    (h : l.dropWhile p ≠ []) : (l.dropWhile p).getLast? = l.getLast? := by
  induction l with
  | nil => simp [List.dropWhile] at h
  | cons a rest ih =>
    rw [List.dropWhile]
    cases hp : p a with
    | true =>
      rw [List.dropWhile, hp] at h
      rw [ih h]
      have hrest : rest ≠ [] := by
        intro he; rw [he] at h; simp [List.dropWhile] at h
      match rest, hrest with
      | b :: rs, _ => simp [List.getLast?_cons_cons]
    | false => rfl

theorem dropEnds_head_not {p : Char → Bool} {l : List Char} {c : Char}
    (h : (dropEnds p l).head? = some c) : p c = false := by
  rw [dropEnds, List.head?_reverse] at h
  have hne : (l.dropWhile p).reverse.dropWhile p ≠ [] := by
    intro he; rw [he] at h; simp at h
  rw [getLast_dropWhile_of_ne_nil hne, List.getLast?_reverse] at h
  exact head_dropWhile_not h

theorem dropEnds_getLast_not {p : Char → Bool} {l : List Char} {c : Char}
    (h : (dropEnds p l).getLast? = some c) : p c = false := by
  rw [dropEnds, List.getLast?_reverse] at h
  exact head_dropWhile_not h

theorem dropEnds_sublist (p : Char → Bool) (l : List Char) :
    List.Sublist (dropEnds p l) l := by
  rw [dropEnds]
  have h1 : List.Sublist ((l.dropWhile p).reverse.dropWhile p).reverse
      (l.dropWhile p).reverse.reverse :=
    List.Sublist.reverse (List.dropWhile_sublist _)
  rw [List.reverse_reverse] at h1
  exact h1.trans (List.dropWhile_sublist _)

theorem mem_of_mem_dropEnds {p : Char → Bool} {l : List Char} {c : Char}
    (h : c ∈ dropEnds p l) : c ∈ l :=
  (dropEnds_sublist p l).subset h

theorem length_dropEnds_le (p : Char → Bool) (l : List Char) :
    (dropEnds p l).length ≤ l.length :=
  (dropEnds_sublist p l).length_le

theorem dropWhile_eq_self_of {p : Char → Bool} {l : List Char}
    (h : ∀ c ∈ l, p c = false) : l.dropWhile p = l := by
  cases l with
  | nil => rfl
  | cons a rest => rw [List.dropWhile, h a (by simp)]

theorem dropEnds_eq_self_of {p : Char → Bool} {l : List Char}
    (h : ∀ c ∈ l, p c = false) : dropEnds p l = l := by
  rw [dropEnds, dropWhile_eq_self_of h,
    dropWhile_eq_self_of (fun c hc => h c (List.mem_reverse.mp hc)),
    List.reverse_reverse]

theorem dropWhile_eq_nil_of {p : Char → Bool} {l : List Char}
    (h : ∀ c ∈ l, p c = true) : l.dropWhile p = [] := by
  induction l with
  | nil => rfl
  | cons a rest ih =>
    rw [List.dropWhile, h a (by simp)]
    exact ih (fun c hc => h c (by simp [hc]))

theorem jsTrim_eq_nil_of_all_ws {l : List Char}
    (h : ∀ c ∈ l, isJsWs c = true) : jsTrim l = [] := by
  rw [jsTrim, dropEnds, dropWhile_eq_nil_of h]
  rfl

/-! ## Run tokenization

All three tokenizers of the source extract the maximal runs of characters
of an alphabet:

* `s.match(/[A-Za-z0-9]+/g)` (permissive camel) extracts the maximal
  `[A-Za-z0-9]` runs;
* `s.split(/[^\p{L}\p{N}]+/u).filter(Boolean)` (permissive Pascal) splits
  on separator runs and drops empties, which yields the maximal
  letter-or-number runs;
* `trimmed.split(/\s+/)` (strict dot and Pascal) is applied only to
  trimmed strings, on which it likewise yields the maximal non-`\s` runs.

`splitRuns keep l` is the list of maximal runs of characters `c` of `l`
with `keep c = true`, left to right.  `cur` accumulates the current run in
reverse. -/

def splitRunsAux (keep : Char → Bool) (cur : List Char) : List Char → List (List Char)
  | [] => if cur = [] then [] else [cur.reverse]
  | c :: rest =>
    if keep c then splitRunsAux keep (c :: cur) rest
    else if cur = [] then splitRunsAux keep [] rest
    else cur.reverse :: splitRunsAux keep [] rest

/-- Maximal runs of characters satisfying `keep`. -/
def splitRuns (keep : Char → Bool) (l : List Char) : List (List Char) :=
  splitRunsAux keep [] l

/-- The model of `trimmed.split(/\s+/)` on trimmed input. -/
def splitWs (l : List Char) : List (List Char) :=
  splitRuns (fun c => !isJsWs c) l

theorem splitRunsAux_ne_nil (keep : Char → Bool) (l : List Char) :
    ∀ cur, ∀ w ∈ splitRunsAux keep cur l, w ≠ [] := by
  induction l with
  | nil =>
    intro cur w hw
    rw [splitRunsAux] at hw
    split at hw
    · simp at hw
    · next hcur =>
      simp only [List.mem_singleton] at hw
      subst hw
      simpa using hcur
  | cons c rest ih =>
    intro cur w hw
    rw [splitRunsAux] at hw
    split at hw
    · exact ih _ w hw
    · split at hw
      · exact ih _ w hw
      · next _ hcur =>
        rcases List.mem_cons.mp hw with hw | hw
        · subst hw; simpa using hcur
        · exact ih _ w hw

theorem splitRunsAux_keep (keep : Char → Bool) (l : List Char) :
    ∀ cur, (∀ c ∈ cur, keep c = true) →
      ∀ w ∈ splitRunsAux keep cur l, ∀ c ∈ w, keep c = true := by
  induction l with
  | nil =>
    intro cur hcur w hw c hc
    rw [splitRunsAux] at hw
    split at hw
    · simp at hw
    · simp only [List.mem_singleton] at hw
      subst hw
      exact hcur c (List.mem_reverse.mp hc)
  | cons a rest ih =>
    intro cur hcur w hw c hc
    rw [splitRunsAux] at hw
    split at hw
    · next ha =>
      refine ih (a :: cur) ?_ w hw c hc
      intro d hd
      rcases List.mem_cons.mp hd with hd | hd
      · subst hd; exact ha
      · exact hcur d hd
    · split at hw
      · exact ih [] (by simp) w hw c hc
      · rcases List.mem_cons.mp hw with hw | hw
        · subst hw; exact hcur c (List.mem_reverse.mp hc)
        · exact ih [] (by simp) w hw c hc

theorem splitRunsAux_mem (keep : Char → Bool) (l : List Char) :
    ∀ cur, ∀ w ∈ splitRunsAux keep cur l, ∀ c ∈ w, c ∈ cur ∨ c ∈ l := by
  induction l with
  | nil =>
    intro cur w hw c hc
    rw [splitRunsAux] at hw
    split at hw
    · simp at hw
    · simp only [List.mem_singleton] at hw
      subst hw
      exact Or.inl (List.mem_reverse.mp hc)
  | cons a rest ih =>
    intro cur w hw c hc
    rw [splitRunsAux] at hw
    split at hw
    · rcases ih (a :: cur) w hw c hc with h | h
      · rcases List.mem_cons.mp h with h | h
        · subst h; exact Or.inr (by simp)
        · exact Or.inl h
      · exact Or.inr (by simp [h])
    · split at hw
      · rcases ih [] w hw c hc with h | h
        · simp at h
        · exact Or.inr (by simp [h])
      · rcases List.mem_cons.mp hw with hw | hw
        · subst hw; exact Or.inl (List.mem_reverse.mp hc)
        · rcases ih [] w hw c hc with h | h
          · simp at h
          · exact Or.inr (by simp [h])

theorem splitRunsAux_flatten (keep : Char → Bool) (l : List Char) :
    ∀ cur, (splitRunsAux keep cur l).flatten = cur.reverse ++ l.filter keep := by
  induction l with
  | nil =>
    intro cur
    rw [splitRunsAux]
    split
    · next hcur => subst hcur; simp
    · simp
  | cons a rest ih =>
    intro cur
    rw [splitRunsAux]
    split
    · next ha =>
      rw [ih (a :: cur)]
      simp [List.filter_cons, ha]
    · next ha =>
      split
      · next hcur =>
        subst hcur
        rw [ih []]
        simp [List.filter_cons, ha]
      · rw [List.flatten_cons, ih []]
        simp [List.filter_cons, ha]

theorem splitRuns_flatten (keep : Char → Bool) (l : List Char) :
    (splitRuns keep l).flatten = l.filter keep := by
  simpa using splitRunsAux_flatten keep l []

theorem splitRuns_ne_nil (keep : Char → Bool) (l : List Char) :
    ∀ w ∈ splitRuns keep l, w ≠ [] :=
  splitRunsAux_ne_nil keep l []

theorem splitRuns_keep (keep : Char → Bool) (l : List Char) :
    ∀ w ∈ splitRuns keep l, ∀ c ∈ w, keep c = true :=
  splitRunsAux_keep keep l [] (by simp)

theorem splitRuns_mem (keep : Char → Bool) (l : List Char) :
    ∀ w ∈ splitRuns keep l, ∀ c ∈ w, c ∈ l := by
  intro w hw c hc
  rcases splitRunsAux_mem keep l [] w hw c hc with h | h
  · simp at h
  · exact h

theorem splitRunsAux_all_keep (keep : Char → Bool) (l : List Char) :
    ∀ cur, (∀ c ∈ l, keep c = true) →
      splitRunsAux keep cur l = if cur.reverse ++ l = [] then [] else [cur.reverse ++ l] := by
  induction l with
  | nil =>
    intro cur _
    rw [splitRunsAux]
    rcases List.eq_nil_or_concat cur with hcur | ⟨_, _, hcur⟩
    · subst hcur; simp
    · subst hcur; simp
  | cons a rest ih =>
    intro cur hl
    rw [splitRunsAux, if_pos (hl a (by simp)), ih (a :: cur) (fun c hc => hl c (by simp [hc]))]
    simp

/-- On a non-empty list whose characters all satisfy `keep`, run splitting
yields the single run consisting of the whole list. -/
theorem splitRuns_all_keep {keep : Char → Bool} {l : List Char}
    (hl : ∀ c ∈ l, keep c = true) (hne : l ≠ []) : splitRuns keep l = [l] := by
  rw [splitRuns, splitRunsAux_all_keep keep l [] hl]
  simp [hne]

theorem splitRuns_eq_nil_iff (keep : Char → Bool) (l : List Char) :
    splitRuns keep l = [] ↔ l.filter keep = [] := by
  constructor
  · intro h
    have := splitRuns_flatten keep l
    rw [h] at this
    simpa using this.symm
  · intro h
    by_contra hne
    rcases List.exists_cons_of_ne_nil hne with ⟨w, ws, hw⟩
    have hjoin := splitRuns_flatten keep l
    rw [hw, h, List.flatten_cons] at hjoin
    have : w = [] := by
      rcases List.append_eq_nil.mp hjoin with ⟨h1, _⟩
      exact h1
    exact splitRuns_ne_nil keep l w (by rw [hw]; simp) this

/-! ## Inputs, errors, and the shared length ceiling -/

/-- The JS values the conversion functions are called with: `null`,
`undefined`, or a string.  Non-string, non-null values (numbers, objects,
...) are outside this embedding; no claim depends on the `InvalidType`
branches they would take. -/
inductive JSVal where
  | nullV : JSVal
  | undefinedV : JSVal
  | str : String → JSVal
deriving DecidableEq

/-- A thrown JS exception: the constructor used by the `throw` site
(`"TypeError"`, `"RangeError"` or `"Error"`) and the exact message. -/
structure JsError where
  name : String
  message : String
deriving DecidableEq

/-- `const MAX_SAFE_INPUT_LENGTH = 1_000_000` of the strict dot/Pascal
module. -/
def MAX_SAFE_INPUT_LENGTH : Nat := 1000000

/-! ## The strict dot.case and PascalCase converters

Embedded from the module defining `toDotCase` and the strict PascalCase
`toCamelCase`.  Both validate identically: null/undefined, empty string,
length ceiling, whitespace-only after trim, then the allowed-character
test `/^[A-Za-z\s]+$/` with the digit test `/[0-9]/` choosing between the
two character-class messages. -/

/-- `/^[A-Za-z\s]+$/.test(l)`. -/
def validPattern (l : List Char) : Bool :=
  !l.isEmpty && l.all (fun c => isAsciiLetter c || isJsWs c)

/-- `/[0-9]/.test(l)` (and the kebab module's `/\d/.test(l)`). -/
def containsDigit (l : List Char) : Bool :=
  l.any isDigitChar

/-- The per-word transform of the strict PascalCase `toCamelCase`:
`w.charAt(0).toUpperCase() + w.slice(1).toLowerCase()`, with empty words
mapped to the empty string. -/
def pascalWord (w : List Char) : List Char :=
  match w with
  | [] => []
  | c :: r => Char.toUpper c :: r.map Char.toLower

namespace Strict

/-- `toDotCase` of the strict module. -/
def toDotCase : JSVal → Except JsError String
  | .undefinedV => .error ⟨"TypeError",
      "Invalid input: value is undefined. Expected a non-empty string containing only letters and spaces."⟩
  | .nullV => .error ⟨"TypeError",
      "Invalid input: value is null. Expected a non-empty string containing only letters and spaces."⟩
  | .str input =>
    if input.length = 0 then
      .error ⟨"Error",
        "Invalid input: empty string. Provide a non-empty string containing only letters and spaces."⟩
    else if input.length > MAX_SAFE_INPUT_LENGTH then
      .error ⟨"RangeError",
        "Input too large: length is " ++ toString input.length ++
          ". This exceeds the safe limit of " ++ toString MAX_SAFE_INPUT_LENGTH ++
          " characters and may cause out-of-memory errors."⟩
    else
      let trimmed := jsTrim input.data
      if trimmed.length = 0 then
        .error ⟨"Error",
          "Invalid input: string contains only whitespace. Provide a non-empty string containing only letters and spaces."⟩
      else if !validPattern trimmed then
        if containsDigit trimmed then
          .error ⟨"Error", "Invalid input: numeric characters are not allowed."⟩
        else
          .error ⟨"Error",
            "Invalid input: special characters (such as hyphens, underscores, or punctuation) are not allowed. Use letters and spaces only."⟩
      else
        .ok (String.mk (List.intercalate ['.']
          ((splitWs trimmed).map (fun w => w.map Char.toLower))))

/-- The strict PascalCase `toCamelCase` of the same module (identical
validation, Pascal rendering). -/
def toCamelCase : JSVal → Except JsError String
  | .undefinedV => .error ⟨"TypeError",
      "Invalid input: value is undefined. Expected a non-empty string containing only letters and spaces."⟩
  | .nullV => .error ⟨"TypeError",
      "Invalid input: value is null. Expected a non-empty string containing only letters and spaces."⟩
  | .str input =>
    if input.length = 0 then
      .error ⟨"Error",
        "Invalid input: empty string. Provide a non-empty string containing only letters and spaces."⟩
    else if input.length > MAX_SAFE_INPUT_LENGTH then
      .error ⟨"RangeError",
        "Input too large: length is " ++ toString input.length ++
          ". This exceeds the safe limit of " ++ toString MAX_SAFE_INPUT_LENGTH ++
          " characters and may cause out-of-memory errors."⟩
    else
      let trimmed := jsTrim input.data
      if trimmed.length = 0 then
        .error ⟨"Error",
          "Invalid input: string contains only whitespace. Provide a non-empty string containing only letters and spaces."⟩
      else if !validPattern trimmed then
        if containsDigit trimmed then
          .error ⟨"Error", "Invalid input: numeric characters are not allowed."⟩
        else
          .error ⟨"Error",
            "Invalid input: special characters (such as hyphens, underscores, or punctuation) are not allowed. Use letters and spaces only."⟩
      else
        .ok (String.mk (((splitWs trimmed).map pascalWord).flatten))

/-- The word sequence `trimmed.split(/\s+/)` computed by `toDotCase`. -/
def dotWords (input : String) : List (List Char) :=
  splitWs (jsTrim input.data)

/-- The word sequence `trimmed.split(/\s+/)` computed by the strict
PascalCase `toCamelCase`. -/
def pascalWords (input : String) : List (List Char) :=
  splitWs (jsTrim input.data)

end Strict

/-! ## The strict kebab-case converter

Embedded from the kebab module: null/undefined check, trim, emptiness
check, digit check, then the cleanup pipeline
camel-boundary-split / whitespace-to-hyphen / lowercase / filter /
collapse-hyphens / strip-edge-hyphens, with a retroactive emptiness
check. -/

namespace Kebab

/-- `trimmed.replace(/([a-z])([A-Z])/g, "$1-$2")`: insert a hyphen at
every lowercase-to-uppercase transition, scanning left to right and
resuming after each match (so in `aBaB` both transitions are split, while
in `abAB` the `AB` run stays together). -/
def insertHyphens : List Char → List Char
  | [] => []
  | [c] => [c]
  | a :: b :: rest =>
    if isLowerAZ a && isUpperAZ b then a :: '-' :: b :: insertHyphens rest
    else a :: insertHyphens (b :: rest)

/-- `s.replace(/\s+/g, "-")`: each maximal whitespace run becomes a single
hyphen.  The flag records whether the previous character was whitespace
(i.e. whether we are inside a run already replaced). -/
def wsToHyphenAux : Bool → List Char → List Char
  | _, [] => []
  | prevWs, c :: rest =>
    if isJsWs c then
      if prevWs then wsToHyphenAux true rest
      else '-' :: wsToHyphenAux true rest
    else c :: wsToHyphenAux false rest

def wsToHyphen (l : List Char) : List Char :=
  wsToHyphenAux false l

/-- The character set kept by `s.replace(/[^a-z-]/g, "")`. -/
def keepKebab (c : Char) : Bool :=
  isLowerAZ c || c = '-'

/-- The hyphen-collapsing step (JS replace of the regex "one or more
hyphens", global, by a single hyphen): each maximal hyphen run becomes a
single hyphen.  The flag records whether the previous character was a
hyphen. -/
def collapseHyphensAux : Bool → List Char → List Char
  | _, [] => []
  | prevH, c :: rest =>
    if c = '-' then
      if prevH then collapseHyphensAux true rest
      else '-' :: collapseHyphensAux true rest
    else c :: collapseHyphensAux false rest

def collapseHyphens (l : List Char) : List Char :=
  collapseHyphensAux false l

/-- `s.replace(/^-+|-+$/g, "")`. -/
def stripEdgeHyphens (l : List Char) : List Char :=
  dropEnds (fun c => c = '-') l

/-- The whole cleanup pipeline applied to the trimmed input. -/
def cleanup (trimmed : List Char) : List Char :=
  stripEdgeHyphens (collapseHyphens
    (((wsToHyphen (insertHyphens trimmed)).map Char.toLower).filter keepKebab))

/-- `toKebabCase` of the kebab module. -/
def toKebabCase : JSVal → Except JsError String
  | .nullV => .error ⟨"Error", "Invalid input: value is null or undefined."⟩
  | .undefinedV => .error ⟨"Error", "Invalid input: value is null or undefined."⟩
  | .str input =>
    let trimmed := jsTrim input.data
    if trimmed.length = 0 then
      .error ⟨"Error", "Empty input: string is empty or contains only whitespace."⟩
    else if containsDigit trimmed then
      .error ⟨"Error", "Invalid input: string contains numbers."⟩
    else
      let s := cleanup trimmed
      if s.length = 0 then
        .error ⟨"Error", "Empty input: string is empty or contains only whitespace."⟩
      else
        .ok (String.mk s)

end Kebab

/-! ## The permissive converters

Embedded from the module with the two permissive `toCamelCase` variants.
Both treat `null`/`undefined` uniformly (`input == null`), so their input
is modelled as `Option String`. -/

/-- The per-word transform shared by the permissive converters:
`const lower = p.toLowerCase(); lower.charAt(0).toUpperCase() + lower.slice(1)`. -/
def capitalizeLower (w : List Char) : List Char :=
  match w.map Char.toLower with
  | [] => []
  | c :: r => Char.toUpper c :: r

namespace UniPascal

/-- The permissive PascalCase `toCamelCase` (Unicode-run tokenization,
modelled on the ASCII alphabet): trim, split on non-letter/number runs,
capitalize each part, join. -/
def toCamelCase : Option String → String
  | none => ""
  | some text =>
    let s := jsTrim text.data
    if s = [] then ""
    else String.mk (((splitRuns isAsciiAlnum s).map capitalizeLower).flatten)

end UniPascal

namespace AsciiCamel

/-- The permissive camelCase `toCamelCase`: extract `[A-Za-z0-9]+` runs
(no trim), lowercase the first word entirely, capitalize the rest, join.
The source maps with an index and special-cases `i === 0`; the embedding
splits the word list into head and tail. -/
def toCamelCase : Option String → String
  | none => ""
  | some input =>
    match splitRuns isAsciiAlnum input.data with
    | [] => ""
    | w :: ws =>
      String.mk ((w.map Char.toLower) ++ (ws.map capitalizeLower).flatten)

end AsciiCamel

deriving instance DecidableEq for Except

/-! ## Inversion lemmas: when does a strict conversion succeed? -/

theorem Strict.toCamelCase_ok_iff {input out : String} :
    Strict.toCamelCase (.str input) = .ok out ↔
      (input.length ≠ 0 ∧ input.length ≤ MAX_SAFE_INPUT_LENGTH ∧
       jsTrim input.data ≠ [] ∧ validPattern (jsTrim input.data) = true ∧
       out = String.mk (((splitWs (jsTrim input.data)).map pascalWord).flatten)) := by
  rw [Strict.toCamelCase]
  by_cases h1 : input.length = 0
  · simp [h1]
  · rw [if_neg h1]
    by_cases h2 : input.length > MAX_SAFE_INPUT_LENGTH
    · simp [h2, Nat.not_le_of_lt h2]
    · rw [if_neg h2]
      by_cases h3 : (jsTrim input.data).length = 0
      · simp only [List.length_eq_zero] at h3
        simp [h3, h1]
      · rw [if_neg h3]
        simp only [List.length_eq_zero] at h3
        by_cases h4 : validPattern (jsTrim input.data)
        · rw [if_neg (by simp [h4])]
          constructor
          · intro h
            exact ⟨h1, Nat.le_of_not_lt h2, h3, h4, (Except.ok.injEq _ _).mp h.symm⟩
          · rintro ⟨-, -, -, -, rfl⟩
            rfl
        · simp only [Bool.not_eq_true] at h4
          rw [if_pos (by simp [h4])]
          constructor
          · intro h
            split at h <;> simp at h
          · rintro ⟨-, -, -, hvp, -⟩
            simp [h4] at hvp

theorem Strict.toDotCase_ok_iff {input out : String} :
    Strict.toDotCase (.str input) = .ok out ↔
      (input.length ≠ 0 ∧ input.length ≤ MAX_SAFE_INPUT_LENGTH ∧
       jsTrim input.data ≠ [] ∧ validPattern (jsTrim input.data) = true ∧
       out = String.mk (List.intercalate ['.']
         ((splitWs (jsTrim input.data)).map (fun w => w.map Char.toLower)))) := by
  rw [Strict.toDotCase]
  by_cases h1 : input.length = 0
  · simp [h1]
  · rw [if_neg h1]
    by_cases h2 : input.length > MAX_SAFE_INPUT_LENGTH
    · simp [h2, Nat.not_le_of_lt h2]
    · rw [if_neg h2]
      by_cases h3 : (jsTrim input.data).length = 0
      · simp only [List.length_eq_zero] at h3
        simp [h3, h1]
      · rw [if_neg h3]
        simp only [List.length_eq_zero] at h3
        by_cases h4 : validPattern (jsTrim input.data)
        · rw [if_neg (by simp [h4])]
          constructor
          · intro h
            exact ⟨h1, Nat.le_of_not_lt h2, h3, h4, (Except.ok.injEq _ _).mp h.symm⟩
          · rintro ⟨-, -, -, -, rfl⟩
            rfl
        · simp only [Bool.not_eq_true] at h4
          rw [if_pos (by simp [h4])]
          constructor
          · intro h
            split at h <;> simp at h
          · rintro ⟨-, -, -, hvp, -⟩
            simp [h4] at hvp

theorem Kebab.toKebabCase_ok_iff {input out : String} :
    Kebab.toKebabCase (.str input) = .ok out ↔
      (jsTrim input.data ≠ [] ∧ containsDigit (jsTrim input.data) = false ∧
       Kebab.cleanup (jsTrim input.data) ≠ [] ∧
       out = String.mk (Kebab.cleanup (jsTrim input.data))) := by
  rw [Kebab.toKebabCase]
  by_cases h1 : (jsTrim input.data).length = 0
  · simp only [List.length_eq_zero] at h1
    simp [h1]
  · rw [if_neg h1]
    simp only [List.length_eq_zero] at h1
    by_cases h2 : containsDigit (jsTrim input.data)
    · simp [h2]
    · simp only [Bool.not_eq_true] at h2
      rw [if_neg (by simp [h2])]
      by_cases h3 : (Kebab.cleanup (jsTrim input.data)).length = 0
      · simp only [List.length_eq_zero] at h3
        simp [h3, h1, h2]
      · rw [if_neg h3]
        simp only [List.length_eq_zero] at h3
        constructor
        · intro h
          exact ⟨h1, h2, h3, (Except.ok.injEq _ _).mp h.symm⟩
        · rintro ⟨-, -, -, rfl⟩
          rfl

/-! ## Facts about validated, trimmed input and its words -/

theorem validPattern_all {t : List Char} (hv : validPattern t = true) :
    ∀ c ∈ t, isAsciiLetter c = true ∨ isJsWs c = true := by
  intro c hc
  rw [validPattern, Bool.and_eq_true, List.all_eq_true] at hv
  simpa using hv.2 c hc

theorem splitWs_jsTrim_ne_nil {l : List Char} (h : jsTrim l ≠ []) :
    splitWs (jsTrim l) ≠ [] := by
  rcases List.exists_cons_of_ne_nil h with ⟨c, rest, hc⟩
  have hcw : isJsWs c = false := by
    refine dropEnds_head_not (l := l) (p := isJsWs) ?_
    rw [← jsTrim, hc]
    rfl
  intro hnil
  rw [splitWs, splitRuns_eq_nil_iff, hc, List.filter_cons] at hnil
  simp [hcw] at hnil

theorem splitWs_words_not_ws {t : List Char} :
    ∀ w ∈ splitWs t, ∀ c ∈ w, isJsWs c = false := by
  intro w hw c hc
  have := splitRuns_keep _ t w hw c hc
  simpa using this

/-- Every character of every word of a strict-validated trimmed input is
an ASCII letter. -/
theorem splitWs_words_letters {t : List Char} (hv : validPattern t = true) :
    ∀ w ∈ splitWs t, ∀ c ∈ w, isAsciiLetter c = true := by
  intro w hw c hc
  rcases validPattern_all hv c (splitRuns_mem _ t w hw c hc) with h | h
  · exact h
  · rw [splitWs_words_not_ws w hw c hc] at h
    cases h

theorem pascalWord_length (w : List Char) : (pascalWord w).length = w.length := by
  cases w with
  | nil => rfl
  | cons c r => simp [pascalWord]

theorem pascalWord_ne_nil {w : List Char} (h : w ≠ []) : pascalWord w ≠ [] := by
  cases w with
  | nil => exact absurd rfl h
  | cons c r => simp [pascalWord]

theorem pascalWord_letters {w : List Char} (h : ∀ c ∈ w, isAsciiLetter c = true) :
    ∀ c ∈ pascalWord w, isAsciiLetter c = true := by
  cases w with
  | nil => simp [pascalWord]
  | cons a r =>
    intro c hc
    rw [pascalWord] at hc
    rcases List.mem_cons.mp hc with hc | hc
    · subst hc
      exact isAsciiLetter_toUpper (h a (by simp))
    · rcases List.mem_map.mp hc with ⟨d, hd, hdc⟩
      subst hdc
      exact isAsciiLetter_toLower (h d (by simp [hd]))

/-! ## Claim C9: shape of the strict PascalCase output

`PascalGroups l` holds exactly when `l` matches the regex
`^([A-Z][a-z]*)+$`: a non-empty concatenation of groups, each an ASCII
uppercase letter followed by zero or more ASCII lowercase letters. -/

inductive PascalGroups : List Char → Prop where
  | single {c : Char} {r : List Char} :
      isUpperAZ c = true → (∀ d ∈ r, isLowerAZ d = true) →
      PascalGroups (c :: r)
  | cons {c : Char} {r l : List Char} :
      isUpperAZ c = true → (∀ d ∈ r, isLowerAZ d = true) →
      PascalGroups l → PascalGroups (c :: (r ++ l))

theorem PascalGroups.ne_nil {l : List Char} (h : PascalGroups l) : l ≠ [] := by
  cases h <;> simp

theorem pascalGroups_flatten {ws : List (List Char)} (hne : ws ≠ [])
    (hword : ∀ w ∈ ws, w ≠ [])
    (hlet : ∀ w ∈ ws, ∀ c ∈ w, isAsciiLetter c = true) :
    PascalGroups ((ws.map pascalWord).flatten) := by
  induction ws with
  | nil => exact absurd rfl hne
  | cons w ws' ih =>
    rcases List.exists_cons_of_ne_nil (hword w (by simp)) with ⟨a, r, hw⟩
    subst hw
    have ha : isUpperAZ (Char.toUpper a) = true :=
      isUpperAZ_toUpper_of_letter (hlet (a :: r) (by simp) a (by simp))
    have hr : ∀ d ∈ r.map Char.toLower, isLowerAZ d = true := by
      intro d hd
      rcases List.mem_map.mp hd with ⟨e, he, hde⟩
      subst hde
      exact isLowerAZ_toLower_of_letter (hlet (a :: r) (by simp) e (by simp [he]))
    rw [List.map_cons, List.flatten_cons, pascalWord]
    cases ws' with
    | nil =>
      simp only [List.map_nil, List.flatten_nil, List.append_nil]
      exact PascalGroups.single ha hr
    | cons v vs =>
      rw [List.cons_append]
      refine PascalGroups.cons ha hr ?_
      refine ih (by simp) ?_ ?_
      · intro u hu; exact hword u (by simp [hu])
      · intro u hu c hc; exact hlet u (by simp [hu]) c hc

/-- C9: for every input accepted by the strict PascalCase converter, the
returned string is non-empty and matches `^([A-Z][a-z]*)+$` (a non-empty
concatenation of capitalized all-ASCII-letter groups with no whitespace,
digit, or separator characters). -/
theorem strict_pascal_output_shape {inp : JSVal} {out : String}
    (h : Strict.toCamelCase inp = .ok out) :
    out ≠ "" ∧ PascalGroups out.data := by
  match inp with
  | .nullV => simp [Strict.toCamelCase] at h
  | .undefinedV => simp [Strict.toCamelCase] at h
  | .str input =>
    rw [Strict.toCamelCase_ok_iff] at h
    rcases h with ⟨-, -, htrim, hvp, hout⟩
    have hgroups : PascalGroups out.data := by
      rw [hout]
      exact pascalGroups_flatten (splitWs_jsTrim_ne_nil htrim)
        (splitRuns_ne_nil _ _) (splitWs_words_letters hvp)
    refine ⟨?_, hgroups⟩
    intro hempty
    have : out.data = [] := by subst hempty; rfl
    exact hgroups.ne_nil this

/-- Witness for C9 at the concrete input `"lucca teacher"`. -/
theorem strict_pascal_output_shape_witness :
    Strict.toCamelCase (.str "lucca teacher") = .ok "LuccaTeacher" ∧
      ("LuccaTeacher" : String) ≠ "" ∧ PascalGroups ("LuccaTeacher" : String).data :=
  ⟨by decide, @strict_pascal_output_shape (.str "lucca teacher") "LuccaTeacher" (by decide)⟩

/-! ## Claim C1: shape of the kebab-case output -/

theorem collapseHyphensAux_mem {l : List Char} :
    ∀ b, ∀ c ∈ Kebab.collapseHyphensAux b l, c ∈ l := by
  induction l with
  | nil => intro b c hc; simp [Kebab.collapseHyphensAux] at hc
  | cons a rest ih =>
    intro b c hc
    rw [Kebab.collapseHyphensAux] at hc
    split at hc
    · next ha =>
      split at hc
      · exact List.mem_cons_of_mem a (ih true c hc)
      · rcases List.mem_cons.mp hc with hc | hc
        · subst hc; simp [ha]
        · exact List.mem_cons_of_mem a (ih true c hc)
    · rcases List.mem_cons.mp hc with hc | hc
      · subst hc; simp
      · exact List.mem_cons_of_mem a (ih false c hc)

theorem collapseHyphensAux_true_head {l : List Char} {c : Char}
    (h : (Kebab.collapseHyphensAux true l).head? = some c) : c ≠ '-' := by
  induction l with
  | nil => simp [Kebab.collapseHyphensAux] at h
  | cons a rest ih =>
    rw [Kebab.collapseHyphensAux] at h
    split at h
    · rw [if_pos rfl] at h
      exact ih h
    · next ha =>
      simp only [List.head?_cons, Option.some.injEq] at h
      subst h
      exact ha

theorem chain'_collapseHyphensAux (l : List Char) :
    ∀ b, List.Chain' (fun a b2 => ¬(a = '-' ∧ b2 = '-'))
      (Kebab.collapseHyphensAux b l) := by
  induction l with
  | nil => intro b; simp [Kebab.collapseHyphensAux]
  | cons a rest ih =>
    intro b
    rw [Kebab.collapseHyphensAux]
    split
    · split
      · exact ih true
      · rw [List.chain'_cons']
        refine ⟨?_, ih true⟩
        intro y hy
        intro hcon
        exact collapseHyphensAux_true_head hy hcon.2
    · next ha =>
      rw [List.chain'_cons']
      refine ⟨?_, ih false⟩
      intro y hy
      intro hcon
      exact ha hcon.1

theorem chain'_dropWhile {R : Char → Char → Prop} {p : Char → Bool} {l : List Char}
    (h : List.Chain' R l) : List.Chain' R (l.dropWhile p) := by
  induction l with
  | nil => exact h
  | cons a rest ih =>
    rw [List.dropWhile]
    split
    · exact ih h.tail
    · exact h

theorem chain'_dropEnds {R : Char → Char → Prop}
    {p : Char → Bool} {l : List Char} (h : List.Chain' R l) :
    List.Chain' R (dropEnds p l) := by
  rw [dropEnds, List.chain'_reverse]
  refine chain'_dropWhile (List.chain'_reverse.mpr ?_)
  exact chain'_dropWhile h

/-- `matchesKebabRegex s` holds exactly when `s` matches
`^[a-z]+(-[a-z]+)*$`: `s` is non-empty, every character is an ASCII
lowercase letter or a hyphen, `s` neither starts nor ends with a hyphen,
and no two hyphens are adjacent.  (Splitting such a string at its hyphens
yields the non-empty lowercase groups of the regex, and conversely.) -/
def matchesKebabRegex (s : String) : Prop :=
  s.data ≠ [] ∧ (∀ c ∈ s.data, isLowerAZ c = true ∨ c = '-') ∧
  s.data.head? ≠ some '-' ∧ s.data.getLast? ≠ some '-' ∧
  List.Chain' (fun a b => ¬(a = '-' ∧ b = '-')) s.data

/-- C1: whenever `toKebabCase` returns normally, the returned string
matches `^[a-z]+(-[a-z]+)*$` (non-empty, only lowercase ASCII letters and
single interior hyphens, no leading or trailing hyphen).  On every other
input of the accepted shape the function returns an error value instead
(`toKebabCase` is total into `Except`). -/
theorem kebab_output_shape {inp : JSVal} {out : String}
    (h : Kebab.toKebabCase inp = .ok out) : matchesKebabRegex out := by
  match inp with
  | .nullV => simp [Kebab.toKebabCase] at h
  | .undefinedV => simp [Kebab.toKebabCase] at h
  | .str input =>
    rw [Kebab.toKebabCase_ok_iff] at h
    rcases h with ⟨-, -, hclean, hout⟩
    have hdata : out.data = Kebab.cleanup (jsTrim input.data) := by
      rw [hout]
    rw [matchesKebabRegex, hdata]
    rw [Kebab.cleanup, Kebab.stripEdgeHyphens] at hclean ⊢
    refine ⟨hclean, ?_, ?_, ?_, ?_⟩
    · intro c hc
      have hc2 := collapseHyphensAux_mem false c (mem_of_mem_dropEnds hc)
      have hc3 := (List.mem_filter.mp hc2).2
      rw [Kebab.keepKebab] at hc3
      rcases Bool.or_eq_true_iff.mp hc3 with h | h
      · exact Or.inl h
      · exact Or.inr (by simpa using h)
    · intro hhead
      have := dropEnds_head_not hhead
      simp at this
    · intro hlast
      have := dropEnds_getLast_not hlast
      simp at this
    · exact chain'_dropEnds (chain'_collapseHyphensAux _ false)

/-- Witness for C1 at the concrete input `"Lucca Teacher"`. -/
theorem kebab_output_shape_witness :
    Kebab.toKebabCase (.str "Lucca Teacher") = .ok "lucca-teacher" ∧
      matchesKebabRegex "lucca-teacher" :=
  ⟨by decide, @kebab_output_shape (.str "Lucca Teacher") "lucca-teacher" (by decide)⟩

/-! ## Claim C3: applying the strict PascalCase converter to its own
output -/

theorem flatten_map_pascalWord_length (ws : List (List Char)) :
    ((ws.map pascalWord).flatten).length = ws.flatten.length := by
  induction ws with
  | nil => rfl
  | cons w ws' ih => simp [List.flatten_cons, pascalWord_length, ih]

theorem flatten_pascal_letters {ws : List (List Char)}
    (hlet : ∀ w ∈ ws, ∀ c ∈ w, isAsciiLetter c = true) :
    ∀ c ∈ (ws.map pascalWord).flatten, isAsciiLetter c = true := by
  intro c hc
  rcases List.mem_flatten.mp hc with ⟨u, hu, hcu⟩
  rcases List.mem_map.mp hu with ⟨w, hw, rfl⟩
  exact pascalWord_letters (hlet w hw) c hcu

theorem flatten_map_pascalWord_ne_nil {ws : List (List Char)} (hne : ws ≠ [])
    (hword : ∀ w ∈ ws, w ≠ []) : (ws.map pascalWord).flatten ≠ [] := by
  rcases List.exists_cons_of_ne_nil hne with ⟨w, ws', rfl⟩
  rw [List.map_cons, List.flatten_cons]
  intro hcon
  exact pascalWord_ne_nil (hword w (by simp)) (List.append_eq_nil.mp hcon).1

theorem map_toLower_idem_of_letters {l : List Char}
    (h : ∀ c ∈ l, isAsciiLetter c = true) :
    (l.map Char.toLower).map Char.toLower = l.map Char.toLower := by
  induction l with
  | nil => rfl
  | cons a r ih =>
    simp only [List.map_cons, List.cons.injEq]
    exact ⟨toLower_idem_of_letter (h a (by simp)),
      ih (fun c hc => h c (by simp [hc]))⟩

theorem validPattern_of_letters {l : List Char} (hne : l ≠ [])
    (h : ∀ c ∈ l, isAsciiLetter c = true) : validPattern l = true := by
  rw [validPattern, Bool.and_eq_true, List.all_eq_true]
  constructor
  · simpa using hne
  · intro c hc
    simp [h c hc]

/-- For a non-empty word list of non-empty all-letter words, the Pascal
render of the joined render is the joined render itself exactly when the
list has a single word. -/
theorem pascalWord_flatten_fixed_iff {ws : List (List Char)} (hne : ws ≠ [])
    (hword : ∀ w ∈ ws, w ≠ [])
    (hlet : ∀ w ∈ ws, ∀ c ∈ w, isAsciiLetter c = true) :
    (pascalWord ((ws.map pascalWord).flatten) = (ws.map pascalWord).flatten ↔
      ws.length = 1) := by
  rcases List.exists_cons_of_ne_nil hne with ⟨w1, ws', rfl⟩
  rcases List.exists_cons_of_ne_nil (hword w1 (by simp)) with ⟨c1, r1, rfl⟩
  have hc1 : isAsciiLetter c1 = true := hlet (c1 :: r1) (by simp) c1 (by simp)
  have hr1 : ∀ c ∈ r1, isAsciiLetter c = true :=
    fun c hc => hlet (c1 :: r1) (by simp) c (by simp [hc])
  rw [List.map_cons, List.flatten_cons,
    show pascalWord (c1 :: r1) = Char.toUpper c1 :: r1.map Char.toLower from rfl,
    List.cons_append,
    show ∀ t : List Char, pascalWord (Char.toUpper c1 :: t) =
      Char.toUpper (Char.toUpper c1) :: t.map Char.toLower from fun t => rfl,
    toUpper_idem_of_letter hc1, List.map_append,
    map_toLower_idem_of_letters hr1, List.cons.injEq]
  simp only [true_and]
  constructor
  · intro happ
    have hJ := List.append_cancel_left happ
    cases ws' with
    | nil => simp
    | cons w2 ws'' =>
      exfalso
      rcases List.exists_cons_of_ne_nil (hword w2 (by simp)) with ⟨c2, r2, hw2⟩
      subst hw2
      have hc2 : isAsciiLetter c2 = true := hlet (c2 :: r2) (by simp) c2 (by simp)
      have hflat : ((List.map pascalWord ((c2 :: r2) :: ws''))).flatten =
          Char.toUpper c2 :: (r2.map Char.toLower ++ ((ws''.map pascalWord)).flatten) := by
        simp [pascalWord]
      rw [hflat, List.map_cons, List.cons.injEq] at hJ
      exact toLower_ne_of_upper (isUpperAZ_toUpper_of_letter hc2) hJ.1
  · intro hlen
    have hws' : ws' = [] := by
      simp only [List.length_cons] at hlen
      exact List.length_eq_zero.mp (by omega)
    subst hws'
    simp

/-- C3: if `toPascalCaseStrict x = out` (strict PascalCase `toCamelCase`),
then a second application treats `out` as a single word:
`toPascalCaseStrict out` succeeds and returns `out` with its first
character uppercased and all remaining characters lowercased
(`pascalWord out.data`); consequently the second application returns
`out` itself exactly when `x` tokenizes to a single word. -/
theorem strict_pascal_double_apply {x out : String}
    (h : Strict.toCamelCase (.str x) = .ok out) :
    Strict.toCamelCase (.str out) = .ok (String.mk (pascalWord out.data)) ∧
      (Strict.toCamelCase (.str out) = .ok out ↔
        (splitWs (jsTrim x.data)).length = 1) := by
  rw [Strict.toCamelCase_ok_iff] at h
  rcases h with ⟨-, hmax, htrim, hvp, hout⟩
  have hws_ne : splitWs (jsTrim x.data) ≠ [] := splitWs_jsTrim_ne_nil htrim
  have hword : ∀ w ∈ splitWs (jsTrim x.data), w ≠ [] := splitRuns_ne_nil _ _
  have hlet : ∀ w ∈ splitWs (jsTrim x.data), ∀ c ∈ w, isAsciiLetter c = true :=
    splitWs_words_letters hvp
  have hdata : out.data = ((splitWs (jsTrim x.data)).map pascalWord).flatten := by
    rw [hout]
  have hdne : out.data ≠ [] := by
    rw [hdata]; exact flatten_map_pascalWord_ne_nil hws_ne hword
  have hdlet : ∀ c ∈ out.data, isAsciiLetter c = true := by
    rw [hdata]; exact flatten_pascal_letters hlet
  have hdnws : ∀ c ∈ out.data, isJsWs c = false :=
    fun c hc => letter_not_ws (hdlet c hc)
  have htrim_out : jsTrim out.data = out.data := dropEnds_eq_self_of hdnws
  have hlen_out : out.length ≤ MAX_SAFE_INPUT_LENGTH := by
    have h1 : out.length = out.data.length := rfl
    have h2 : out.data.length =
        (((splitWs (jsTrim x.data)).map pascalWord).flatten).length := by
      rw [hdata]
    have h3 := flatten_map_pascalWord_length (splitWs (jsTrim x.data))
    have h4 : (splitWs (jsTrim x.data)).flatten =
        (jsTrim x.data).filter (fun c => !isJsWs c) := splitRuns_flatten _ _
    have h45 : (splitWs (jsTrim x.data)).flatten.length =
        ((jsTrim x.data).filter (fun c => !isJsWs c)).length := by rw [h4]
    have h5 : ((jsTrim x.data).filter (fun c => !isJsWs c)).length ≤
        (jsTrim x.data).length := List.length_filter_le _ _
    have h6 : (jsTrim x.data).length ≤ x.data.length :=
      length_dropEnds_le isJsWs x.data
    have h7 : x.data.length = x.length := rfl
    omega
  have hsplit_out : splitWs out.data = [out.data] := by
    rw [splitWs]
    exact splitRuns_all_keep (by intro c hc; simp [hdnws c hc]) hdne
  have hfirst : Strict.toCamelCase (.str out) = .ok (String.mk (pascalWord out.data)) := by
    rw [Strict.toCamelCase_ok_iff]
    refine ⟨?_, hlen_out, ?_, ?_, ?_⟩
    · intro hcon
      have : out.data.length = 0 := hcon
      rw [List.length_eq_zero] at this
      exact hdne this
    · rw [htrim_out]; exact hdne
    · rw [htrim_out]; exact validPattern_of_letters hdne hdlet
    · rw [htrim_out, hsplit_out]
      simp
  refine ⟨hfirst, ?_⟩
  rw [hfirst]
  rw [show (Except.ok (String.mk (pascalWord out.data)) =
      (Except.ok out : Except JsError String)) ↔
      String.mk (pascalWord out.data) = out from by simp]
  rw [String.ext_iff]
  rw [show (String.mk (pascalWord out.data)).data = pascalWord out.data from rfl]
  rw [hdata]
  exact pascalWord_flatten_fixed_iff hws_ne hword hlet

/-- Witness for C3 at the concrete input `"ab cd"` (which tokenizes to two
words, so the second application does not return the first output). -/
theorem strict_pascal_double_apply_witness :
    Strict.toCamelCase (.str "ab cd") = .ok "AbCd" ∧
      (Strict.toCamelCase (.str "AbCd") =
        .ok (String.mk (pascalWord ("AbCd" : String).data)) ∧
       (Strict.toCamelCase (.str "AbCd") = .ok "AbCd" ↔
        (splitWs (jsTrim ("ab cd" : String).data)).length = 1)) :=
  ⟨by decide, @strict_pascal_double_apply "ab cd" "AbCd" (by decide)⟩

/-! ## Claim C7: the strict dot and Pascal converters tokenize alike -/

/-- C7: on inputs of letters and single spaces, `toDotCase` and the strict
PascalCase `toCamelCase` split the trimmed input into the identical word
sequence (both compute `trimmed.split(/\s+/)`), and each renders its
output from exactly that sequence (dot join of lowercased words versus
concatenation of Pascal words). -/
theorem strict_tokenize_agree (s : String)
    (_h : ∀ c ∈ s.data, isAsciiLetter c = true ∨ c = ' ') :
    Strict.dotWords s = Strict.pascalWords s ∧
      (∀ out : String, Strict.toDotCase (.str s) = .ok out →
        out.data = List.intercalate ['.']
          ((Strict.dotWords s).map (fun w => w.map Char.toLower))) ∧
      (∀ out : String, Strict.toCamelCase (.str s) = .ok out →
        out.data = ((Strict.pascalWords s).map pascalWord).flatten) := by
  refine ⟨rfl, ?_, ?_⟩
  · intro out hout
    rw [Strict.toDotCase_ok_iff] at hout
    rw [hout.2.2.2.2]
    rfl
  · intro out hout
    rw [Strict.toCamelCase_ok_iff] at hout
    rw [hout.2.2.2.2]
    rfl

/-- Witness for C7 at the concrete input `"ab cd"`. -/
theorem strict_tokenize_agree_witness :
    (∀ c ∈ ("ab cd" : String).data, isAsciiLetter c = true ∨ c = ' ') ∧
      Strict.dotWords "ab cd" = Strict.pascalWords "ab cd" :=
  ⟨by decide, (strict_tokenize_agree "ab cd" (by decide)).1⟩

/-! ## Claim C6: the retroactive emptiness check of the kebab converter -/

/-- C6: if the trimmed input is non-empty and digit-free but the cleanup
pipeline yields the empty string, `toKebabCase` raises `EmptyInput` with
the same message as the pre-tokenization emptiness check. -/
theorem kebab_post_cleanup_empty {s : String}
    (h1 : jsTrim s.data ≠ []) (h2 : containsDigit (jsTrim s.data) = false)
    (h3 : Kebab.cleanup (jsTrim s.data) = []) :
    Kebab.toKebabCase (.str s) =
      .error ⟨"Error", "Empty input: string is empty or contains only whitespace."⟩ := by
  simp only [Kebab.toKebabCase]
  rw [if_neg (by simpa [List.length_eq_zero] using h1),
    if_neg (by simp [h2]),
    if_pos (by simp [h3])]

/-- Witness for C6 at the concrete input `"@#$%^&*()"` (non-empty,
digit-free, erased entirely by cleanup). -/
theorem kebab_post_cleanup_empty_witness :
    jsTrim ("@#$%^&*()" : String).data ≠ [] ∧
      containsDigit (jsTrim ("@#$%^&*()" : String).data) = false ∧
      Kebab.cleanup (jsTrim ("@#$%^&*()" : String).data) = [] ∧
      Kebab.toKebabCase (.str "@#$%^&*()") =
        .error ⟨"Error", "Empty input: string is empty or contains only whitespace."⟩ :=
  ⟨by decide, by decide, by decide,
    @kebab_post_cleanup_empty "@#$%^&*()" (by decide) (by decide) (by decide)⟩

/-! ## Claim C4: the NullInput message

The kebab converter uses the single message
`"Invalid input: value is null or undefined."` for both `null` and
`undefined`; the strict dot/Pascal converters instead distinguish the two
cases with messages of their own. -/

/-- C4 counterexample: `toDotCase` on `null` raises a message different
from `"Invalid input: value is null or undefined."`. -/
theorem nullInput_message_counterexample :
    Strict.toDotCase .nullV =
      .error ⟨"TypeError",
        "Invalid input: value is null. Expected a non-empty string containing only letters and spaces."⟩ ∧
    ("Invalid input: value is null. Expected a non-empty string containing only letters and spaces." : String) ≠
      "Invalid input: value is null or undefined." :=
  ⟨rfl, by decide⟩

/-- C4 amended: `toKebabCase` raises exactly
`"Invalid input: value is null or undefined."` on `null` and `undefined`;
the strict dot/Pascal converters raise TypeErrors whose messages
distinguish `null` from `undefined`. -/
theorem nullInput_messages :
    Kebab.toKebabCase .nullV =
      .error ⟨"Error", "Invalid input: value is null or undefined."⟩ ∧
    Kebab.toKebabCase .undefinedV =
      .error ⟨"Error", "Invalid input: value is null or undefined."⟩ ∧
    Strict.toDotCase .nullV =
      .error ⟨"TypeError",
        "Invalid input: value is null. Expected a non-empty string containing only letters and spaces."⟩ ∧
    Strict.toDotCase .undefinedV =
      .error ⟨"TypeError",
        "Invalid input: value is undefined. Expected a non-empty string containing only letters and spaces."⟩ ∧
    Strict.toCamelCase .nullV =
      .error ⟨"TypeError",
        "Invalid input: value is null. Expected a non-empty string containing only letters and spaces."⟩ ∧
    Strict.toCamelCase .undefinedV =
      .error ⟨"TypeError",
        "Invalid input: value is undefined. Expected a non-empty string containing only letters and spaces."⟩ :=
  ⟨rfl, rfl, rfl, rfl, rfl, rfl⟩

/-! ## Claim C8: the permissive converters never throw -/

/-- C8: the permissive converters are total functions into `String` (they
have no error path at all in this embedding); the Pascal/Unicode variant
returns `""` on `null`/`undefined` (both modelled by `none`) and on every
whitespace-only (hence also empty) input, and the camel/ASCII variant
returns `""` on `null`/`undefined` and whenever the input contains no
`[A-Za-z0-9]` run. -/
theorem permissive_never_throws :
    UniPascal.toCamelCase none = "" ∧
    (∀ s : String, (∀ c ∈ s.data, isJsWs c = true) →
      UniPascal.toCamelCase (some s) = "") ∧
    AsciiCamel.toCamelCase none = "" ∧
    (∀ s : String, splitRuns isAsciiAlnum s.data = [] →
      AsciiCamel.toCamelCase (some s) = "") := by
  refine ⟨rfl, ?_, rfl, ?_⟩
  · intro s hs
    simp only [UniPascal.toCamelCase]
    rw [if_pos (jsTrim_eq_nil_of_all_ws hs)]
  · intro s hs
    simp only [AsciiCamel.toCamelCase, hs]

/-- Witness for C8 at the whitespace-only input `"  "` and the
run-free input `"_!"`. -/
theorem permissive_never_throws_witness :
    UniPascal.toCamelCase (some "  ") = "" ∧
      AsciiCamel.toCamelCase (some "_!") = "" :=
  ⟨permissive_never_throws.2.1 "  " (by decide),
    permissive_never_throws.2.2.2 "_!" (by decide)⟩

/-! ## Claim C10: the camelCase output never starts with an uppercase
letter -/

theorem digit_not_upper {c : Char} (h : isDigitChar c = true) :
    isUpperAZ c = false := by
  simp only [isDigitChar, Bool.and_eq_true, decide_eq_true_eq] at h
  simp only [isUpperAZ, Bool.and_eq_false_iff, decide_eq_false_iff_not, not_le]
  omega

theorem alnum_toLower_head {a : Char} (h : isAsciiAlnum a = true) :
    (isLowerAZ (Char.toLower a) = true ∨ isDigitChar (Char.toLower a) = true) ∧
      isUpperAZ (Char.toLower a) = false := by
  rw [isAsciiAlnum, Bool.or_eq_true] at h
  rcases h with h | h
  · exact ⟨Or.inl (isLowerAZ_toLower_of_letter h),
      lower_not_upper (isLowerAZ_toLower_of_letter h)⟩
  · rw [toLower_eq_of_not_upper (digit_not_upper h)]
    exact ⟨Or.inr h, digit_not_upper h⟩

/-- C10: the result of the permissive camelCase converter never begins
with an uppercase ASCII letter: if it is non-empty, its first character is
a lowercase letter or a digit, because the whole first word is lowercased
before joining. -/
theorem asciiCamel_first_char {inp : Option String} {c : Char}
    (h : (AsciiCamel.toCamelCase inp).data.head? = some c) :
    (isLowerAZ c = true ∨ isDigitChar c = true) ∧ isUpperAZ c = false := by
  match inp with
  | none => simp [AsciiCamel.toCamelCase] at h
  | some s =>
    simp only [AsciiCamel.toCamelCase] at h
    cases hws : splitRuns isAsciiAlnum s.data with
    | nil => rw [hws] at h; simp at h
    | cons w ws =>
      rw [hws] at h
      have hwne : w ≠ [] := splitRuns_ne_nil _ _ w (by rw [hws]; simp)
      rcases List.exists_cons_of_ne_nil hwne with ⟨a, r, rfl⟩
      have ha : isAsciiAlnum a = true :=
        splitRuns_keep isAsciiAlnum s.data (a :: r) (by rw [hws]; simp) a (by simp)
      simp only [List.map_cons, List.cons_append, List.head?_cons,
        Option.some.injEq] at h
      rw [← h]
      exact alnum_toLower_head ha

/-- Witness for C10 at the concrete input `"Hello"` (result `"hello"`,
first character `'h'`). -/
theorem asciiCamel_first_char_witness :
    (AsciiCamel.toCamelCase (some "Hello")).data.head? = some 'h' ∧
      ((isLowerAZ 'h' = true ∨ isDigitChar 'h' = true) ∧ isUpperAZ 'h' = false) :=
  ⟨by decide, @asciiCamel_first_char (some "Hello") 'h' (by decide)⟩

/-! ## Claim C2: the length ceiling

The strict dot/Pascal module checks `input.length > MAX_SAFE_INPUT_LENGTH`
on the raw input, before trimming.  The kebab module performs no length
check at all, so the counterexample below feeds it an input of 1,000,001
characters, which it converts normally. -/

/-- A string of 1,000,001 `'a'` characters. -/
def bigAs : String := String.mk (List.replicate 1000001 'a')

/-- A string of 1,000,001 space characters. -/
def bigSpaces : String := String.mk (List.replicate 1000001 ' ')

/-- A 1,000,002-character string whose trimmed form contains a digit and a
special character. -/
def bigDigitSpecial : String := String.mk ('1' :: '!' :: List.replicate 1000000 'a')

theorem insertHyphens_id : ∀ l : List Char, (∀ c ∈ l, isUpperAZ c = false) →
    Kebab.insertHyphens l = l
  | [], _ => rfl
  | [c], _ => rfl
  | a :: b :: rest, h => by
    rw [Kebab.insertHyphens, if_neg (by simp [h b (by simp)])]
    have := insertHyphens_id (b :: rest) (fun c hc => h c (by simp at hc ⊢; tauto))
    rw [this]

theorem wsToHyphenAux_id {l : List Char} (h : ∀ c ∈ l, isJsWs c = false) :
    ∀ b, Kebab.wsToHyphenAux b l = l := by
  induction l with
  | nil => intro b; rfl
  | cons a rest ih =>
    intro b
    rw [Kebab.wsToHyphenAux, if_neg (by simp [h a (by simp)])]
    rw [ih (fun c hc => h c (by simp [hc])) false]

theorem map_toLower_id {l : List Char} (h : ∀ c ∈ l, isUpperAZ c = false) :
    l.map Char.toLower = l := by
  induction l with
  | nil => rfl
  | cons a rest ih =>
    rw [List.map_cons, toLower_eq_of_not_upper (h a (by simp)),
      ih (fun c hc => h c (by simp [hc]))]

theorem collapseHyphensAux_id {l : List Char} (h : ∀ c ∈ l, c ≠ '-') :
    ∀ b, Kebab.collapseHyphensAux b l = l := by
  induction l with
  | nil => intro b; rfl
  | cons a rest ih =>
    intro b
    rw [Kebab.collapseHyphensAux, if_neg (by simp [h a (by simp)]),
      ih (fun c hc => h c (by simp [hc])) false]

theorem lower_not_hyphen {c : Char} (h : isLowerAZ c = true) : c ≠ '-' := by
  intro hcon
  subst hcon
  simp [isLowerAZ] at h

/-- The kebab cleanup pipeline is the identity on strings of lowercase
ASCII letters. -/
theorem cleanup_id_of_lower {l : List Char} (h : ∀ c ∈ l, isLowerAZ c = true) :
    Kebab.cleanup l = l := by
  have hletter : ∀ c ∈ l, isAsciiLetter c = true := by
    intro c hc; simp [isAsciiLetter, h c hc]
  have hnup : ∀ c ∈ l, isUpperAZ c = false :=
    fun c hc => lower_not_upper (h c hc)
  have hnws : ∀ c ∈ l, isJsWs c = false :=
    fun c hc => letter_not_ws (hletter c hc)
  have hnh : ∀ c ∈ l, c ≠ '-' := fun c hc => lower_not_hyphen (h c hc)
  rw [Kebab.cleanup, insertHyphens_id l hnup, Kebab.wsToHyphen,
    wsToHyphenAux_id hnws false, map_toLower_id hnup,
    List.filter_eq_self.mpr (by intro c hc; simp [Kebab.keepKebab, h c hc]),
    Kebab.collapseHyphens, collapseHyphensAux_id hnh false,
    Kebab.stripEdgeHyphens, dropEnds_eq_self_of (by intro c hc; simp [hnh c hc])]

theorem replicate_ne_nil_of_pos {c : Char} {n : Nat} (h : 0 < n) :
    List.replicate n c ≠ [] := by
  intro hcon
  have h2 := congrArg List.length hcon
  rw [List.length_replicate, List.length_nil] at h2
  omega

/-- C2 counterexample: `toKebabCase` has no `InputTooLarge` check.  On the
1,000,001-character input `bigAs` (raw length above the 1,000,000
ceiling), the kebab converter returns normally instead of throwing. -/
theorem kebab_no_length_ceiling_counterexample :
    bigAs.length > MAX_SAFE_INPUT_LENGTH ∧
      Kebab.toKebabCase (.str bigAs) = .ok bigAs := by
  have hrep : ∀ c ∈ List.replicate 1000001 'a', c = 'a' :=
    fun c hc => List.eq_of_mem_replicate hc
  have hlow : ∀ c ∈ List.replicate 1000001 'a', isLowerAZ c = true := by
    intro c hc; rw [hrep c hc]; decide
  have hdata : bigAs.data = List.replicate 1000001 'a' := rfl
  have htrim : jsTrim bigAs.data = List.replicate 1000001 'a' := by
    rw [hdata]
    exact dropEnds_eq_self_of
      (fun c hc => letter_not_ws (by simp [isAsciiLetter, hlow c hc]))
  constructor
  · show (List.replicate 1000001 'a').length > MAX_SAFE_INPUT_LENGTH
    rw [List.length_replicate]
    decide
  · rw [Kebab.toKebabCase_ok_iff, htrim]
    refine ⟨?_, ?_, ?_, ?_⟩
    · exact replicate_ne_nil_of_pos (by decide)
    · rw [containsDigit]
      rw [List.any_eq_false]
      intro c hc
      rw [hrep c hc]
      decide
    · rw [cleanup_id_of_lower hlow]
      exact replicate_ne_nil_of_pos (by decide)
    · rw [cleanup_id_of_lower hlow]
      rfl

/-- C2 amended: `toDotCase` and the strict PascalCase `toCamelCase` raise
`InputTooLarge` (a RangeError with the documented message) whenever the
raw, untrimmed input length exceeds 1,000,000 characters — the check uses
the raw length, before trimming — while `toKebabCase` has no length check
(see the counterexample). -/
theorem strict_length_ceiling {s : String}
    (h : s.length > MAX_SAFE_INPUT_LENGTH) :
    Strict.toDotCase (.str s) = .error ⟨"RangeError",
      "Input too large: length is " ++ toString s.length ++
        ". This exceeds the safe limit of " ++ toString MAX_SAFE_INPUT_LENGTH ++
        " characters and may cause out-of-memory errors."⟩ ∧
    Strict.toCamelCase (.str s) = .error ⟨"RangeError",
      "Input too large: length is " ++ toString s.length ++
        ". This exceeds the safe limit of " ++ toString MAX_SAFE_INPUT_LENGTH ++
        " characters and may cause out-of-memory errors."⟩ := by
  have h0 : s.length ≠ 0 := by
    rw [MAX_SAFE_INPUT_LENGTH] at h
    omega
  constructor
  · simp only [Strict.toDotCase]
    rw [if_neg h0, if_pos h]
  · simp only [Strict.toCamelCase]
    rw [if_neg h0, if_pos h]

/-- Witness for the amended C2 at the concrete input `bigSpaces`
(whitespace-only, so its trimmed form is empty and short: the RangeError
nevertheless fires, showing the check precedes trimming). -/
theorem strict_length_ceiling_witness :
    bigSpaces.length > MAX_SAFE_INPUT_LENGTH ∧
      Strict.toDotCase (.str bigSpaces) = .error ⟨"RangeError",
        "Input too large: length is " ++ toString bigSpaces.length ++
          ". This exceeds the safe limit of " ++ toString MAX_SAFE_INPUT_LENGTH ++
          " characters and may cause out-of-memory errors."⟩ ∧
      Strict.toCamelCase (.str bigSpaces) = .error ⟨"RangeError",
        "Input too large: length is " ++ toString bigSpaces.length ++
          ". This exceeds the safe limit of " ++ toString MAX_SAFE_INPUT_LENGTH ++
          " characters and may cause out-of-memory errors."⟩ := by
  have h : bigSpaces.length > MAX_SAFE_INPUT_LENGTH := by
    show (List.replicate 1000001 ' ').length > MAX_SAFE_INPUT_LENGTH
    rw [List.length_replicate]
    decide
  exact ⟨h, strict_length_ceiling h⟩

/-! ## Claim C5: the digit check takes priority over the
special-character check -/

/-- A character disallowed by strict validation that is not a digit:
neither an ASCII letter, nor whitespace, nor a digit. -/
def isSpecialChar (c : Char) : Bool :=
  !isAsciiLetter c && !isJsWs c && !isDigitChar c

/-- C5 counterexample: on `bigDigitSpecial` (raw length 1,000,002, whose
trimmed form contains both the digit `'1'` and the special character
`'!'`), `toDotCase` raises the RangeError of the length ceiling, not
`ContainsDigits` — the length check precedes every character-class
check. -/
theorem digit_priority_counterexample :
    (∃ c ∈ jsTrim bigDigitSpecial.data, isDigitChar c = true) ∧
    (∃ c ∈ jsTrim bigDigitSpecial.data, isSpecialChar c = true) ∧
    Strict.toDotCase (.str bigDigitSpecial) = .error ⟨"RangeError",
      "Input too large: length is " ++ toString bigDigitSpecial.length ++
        ". This exceeds the safe limit of " ++ toString MAX_SAFE_INPUT_LENGTH ++
        " characters and may cause out-of-memory errors."⟩ := by
  have hdata : bigDigitSpecial.data = '1' :: '!' :: List.replicate 1000000 'a' := rfl
  have htrim : jsTrim bigDigitSpecial.data = bigDigitSpecial.data := by
    refine dropEnds_eq_self_of ?_
    rw [hdata]
    intro c hc
    rcases List.mem_cons.mp hc with rfl | hc
    · decide
    · rcases List.mem_cons.mp hc with rfl | hc
      · decide
      · rw [List.eq_of_mem_replicate hc]
        decide
  have hlen : bigDigitSpecial.length = 1000002 := by
    show ('1' :: '!' :: List.replicate 1000000 'a').length = 1000002
    rw [List.length_cons, List.length_cons, List.length_replicate]
  refine ⟨⟨'1', ?_, by decide⟩, ⟨'!', ?_, by decide⟩, ?_⟩
  · rw [htrim, hdata]
    exact List.mem_cons_self _ _
  · rw [htrim, hdata]
    exact List.mem_cons_of_mem _ (List.mem_cons_self _ _)
  · simp only [Strict.toDotCase]
    rw [if_neg (by rw [hlen]; omega), if_pos (by rw [hlen]; decide)]

/-- C5 amended: whenever the trimmed input contains both a digit and a
disallowed special character, `toKebabCase` raises `ContainsDigits`
unconditionally, and `toDotCase` and the strict PascalCase `toCamelCase`
raise `ContainsDigits` provided the raw length does not exceed the
1,000,000-character ceiling (otherwise `InputTooLarge` fires first, see
the counterexample); none of the three ever raises
`ContainsSpecialCharacters` when a digit is present. -/
theorem strict_digit_priority {s : String}
    (hd : ∃ c ∈ jsTrim s.data, isDigitChar c = true)
    (_hs : ∃ c ∈ jsTrim s.data, isSpecialChar c = true) :
    Kebab.toKebabCase (.str s) =
      .error ⟨"Error", "Invalid input: string contains numbers."⟩ ∧
    (s.length ≤ MAX_SAFE_INPUT_LENGTH →
      Strict.toDotCase (.str s) =
        .error ⟨"Error", "Invalid input: numeric characters are not allowed."⟩ ∧
      Strict.toCamelCase (.str s) =
        .error ⟨"Error", "Invalid input: numeric characters are not allowed."⟩) := by
  obtain ⟨d, hdmem, hdig⟩ := hd
  have htne : jsTrim s.data ≠ [] := List.ne_nil_of_mem hdmem
  have hcd : containsDigit (jsTrim s.data) = true := by
    rw [containsDigit, List.any_eq_true]
    exact ⟨d, hdmem, hdig⟩
  have hlen0 : s.length ≠ 0 := by
    intro hcon
    exact List.ne_nil_of_mem (mem_of_mem_dropEnds hdmem)
      (List.length_eq_zero.mp hcon)
  have hvp : validPattern (jsTrim s.data) = false := by
    rw [validPattern]
    have hall : (jsTrim s.data).all (fun c => isAsciiLetter c || isJsWs c) = false := by
      rw [List.all_eq_false]
      refine ⟨d, hdmem, ?_⟩
      simp [digit_not_letter hdig, digit_not_ws hdig]
    simp [hall]
  refine ⟨?_, ?_⟩
  · simp only [Kebab.toKebabCase]
    rw [if_neg (by simpa [List.length_eq_zero] using htne), if_pos (by simp [hcd])]
  · intro hmax
    constructor
    · simp only [Strict.toDotCase]
      rw [if_neg hlen0, if_neg (by omega),
        if_neg (by simpa [List.length_eq_zero] using htne),
        if_pos (by simp [hvp]), if_pos (by simp [hcd])]
    · simp only [Strict.toCamelCase]
      rw [if_neg hlen0, if_neg (by omega),
        if_neg (by simpa [List.length_eq_zero] using htne),
        if_pos (by simp [hvp]), if_pos (by simp [hcd])]

/-- Witness for the amended C5 at the concrete input `"a1! "` (trimmed
form `"a1!"`, containing the digit `'1'` and the special character
`'!'`). -/
theorem strict_digit_priority_witness :
    (∃ c ∈ jsTrim ("a1! " : String).data, isDigitChar c = true) ∧
    (∃ c ∈ jsTrim ("a1! " : String).data, isSpecialChar c = true) ∧
    (Kebab.toKebabCase (.str "a1! ") =
        .error ⟨"Error", "Invalid input: string contains numbers."⟩ ∧
      (("a1! " : String).length ≤ MAX_SAFE_INPUT_LENGTH →
        Strict.toDotCase (.str "a1! ") =
          .error ⟨"Error", "Invalid input: numeric characters are not allowed."⟩ ∧
        Strict.toCamelCase (.str "a1! ") =
          .error ⟨"Error", "Invalid input: numeric characters are not allowed."⟩)) :=
  ⟨by decide, by decide, @strict_digit_priority "a1! " (by decide) (by decide)⟩
